import Mathlib

/-!
Verification of the chunking-and-metadata pipeline of a RAG document loader
(clean_architecture_loader.py, vector_db_manager.py), shallowly embedded in Lean.
Raw text is modelled as List Char; Python strings appearing at interfaces are Lean
String values (whose logical model is a list of characters).
-/

/-- Glob matcher modelling Python fnmatch.fnmatch with case-sensitive semantics
(as on POSIX): a star matches any sequence of characters, a question mark matches
exactly one character, every other pattern character matches itself. -/
def globMatch : List Char → List Char → Bool
  | [], s => s.isEmpty
  | c :: ps, s =>
    if c = '*' then s.tails.any (fun t => globMatch ps t)
    else
      match s with
      | [] => false
      | d :: s' => (c == '?' || c == d) && globMatch ps s'

/-- Model of fnmatch.fnmatch(file_name, pattern) as used by identify_file_type. -/
def fnmatch (file_name : String) (pattern : String) : Bool :=
  globMatch pattern.data file_name.data

/-- The ordered category-to-patterns table SimpleDirectoryLoader.FILE_TYPE_PATTERNS;
Python dict literals preserve declaration order, so the list order is the iteration
order of the source loop. -/
def FILE_TYPE_PATTERNS : List (String × List String) :=
  [("csharp", ["*.cs"]),
   ("project", ["*.csproj", "*.sln"]),
   ("config", ["*.json", "*.xml", "*.yml", "*.yaml", "appsettings*.json"]),
   ("documentation", ["*.md", "*.rst", "*.txt"]),
   ("web", ["*.html", "*.css", "*.js", "*.ts"]),
   ("test", ["*test*.cs", "*Test*.cs", "*Tests*.cs"]),
   ("migration", ["*Migration*.cs", "*migration*.cs"])]

/-- The nested for-loops of identify_file_type: walk the table in declaration
order and return the first category one of whose patterns matches. -/
def findCategory (file_name : String) : List (String × List String) → Option String
  | [] => none
  | (file_type, patterns) :: rest =>
    if patterns.any (fun pattern => fnmatch file_name pattern) then some file_type
    else findCategory file_name rest

/-- SimpleDirectoryLoader.identify_file_type, applied to the file name
(the source passes a Path and reads file_path.name first). -/
def identify_file_type (file_name : String) : String :=
  (findCategory file_name FILE_TYPE_PATTERNS).getD "other"

/-- The separator priority list passed to the splitter in chunk_content
(paragraph break, line break, space, character level). -/
def SEPARATORS : List (List Char) := [['\n', '\n'], ['\n'], [' '], []]

/-- Modelled from the spec: the recursive chunk splitter behind chunk_content is
the external RecursiveCharacterTextSplitter, whose code is not part of this
repository; this and the following splitter functions follow the algorithm of the
specification. splitGo chops a text at every occurrence of a nonempty separator,
keeping the separator attached to the piece before it, so that the concatenation
of the pieces is the original text. The fuel argument (instantiated with the text
length, enough for every step to consume at least one character) makes the
recursion structural; on fuel exhaustion the remainder is returned as one piece,
which keeps the concatenation property unconditional. -/
def splitGo (sep : List Char) : Nat → List Char → List Char → List (List Char)
  | 0, acc, text => if (acc ++ text).isEmpty then [] else [acc ++ text]
  | fuel + 1, acc, text =>
    match text with
    | [] => if acc.isEmpty then [] else [acc]
    | c :: rest =>
      if sep.isPrefixOf (c :: rest) && !sep.isEmpty then
        (acc ++ sep) :: splitGo sep fuel [] ((c :: rest).drop sep.length)
      else
        splitGo sep fuel (acc ++ [c]) rest

/-- Modelled from the spec: split a text at a separator, keeping separators; the
empty separator is the character-level last resort of the separator list. -/
def splitKeepSep (sep : List Char) (text : List Char) : List (List Char) :=
  if sep.isEmpty then text.map (fun c => [c]) else splitGo sep text.length [] text

/-- Modelled from the spec: recursively refine a text into pieces of length at
most maxSize, trying the separators from coarsest to finest and recursing into
the next finer separator only for pieces that are still too large. -/
def refinePieces (maxSize : Nat) : List (List Char) → List Char → List (List Char)
  | [], text => [text]
  | sep :: finer, text =>
    (splitKeepSep sep text).flatMap
      (fun p => if p.length ≤ maxSize then [p] else refinePieces maxSize finer p)

/-- The trailing slice of length n of a list. -/
def takeRight (n : Nat) (l : List Char) : List Char := l.drop (l.length - n)

/-- Modelled from the spec: greedily pack consecutive pieces into the current
chunk while the chunk stays within maxSize; when a chunk is closed, the next
chunk re-includes a trailing slice of it sized to approximate the requested
overlap (shrunk when needed so the new chunk still fits in maxSize). -/
def packGo (maxSize overlap : Nat) (cur : List Char) : List (List Char) → List (List Char)
  | [] => [cur]
  | p :: ps =>
    if cur.length + p.length ≤ maxSize then
      packGo maxSize overlap (cur ++ p) ps
    else
      cur :: packGo maxSize overlap (takeRight (min overlap (maxSize - p.length)) cur ++ p) ps

/-- Modelled from the spec: pack a piece sequence into overlapping chunks; an
empty piece sequence (empty input text) yields the empty chunk sequence. -/
def pack (maxSize overlap : Nat) : List (List Char) → List (List Char)
  | [] => []
  | p :: ps => packGo maxSize overlap p ps

/-- Modelled from the spec: the full splitter, refinement followed by greedy
packing with overlap, over the fixed separator priority list. -/
def split_text (maxSize overlap : Nat) (text : List Char) : List (List Char) :=
  pack maxSize overlap (refinePieces maxSize SEPARATORS text)

/-- SimpleDirectoryLoader.chunk_content: character-length-based recursive
splitting with overlap (the source configures the splitter with chunk_size
max_tokens, chunk_overlap overlap_tokens, length_function len and the separator
list of SEPARATORS; the splitter itself is spec-modelled, see split_text). -/
def chunk_content (content : String) (max_tokens : Nat) (overlap_tokens : Nat) : List String :=
  (split_text max_tokens overlap_tokens content.data).map String.mk

/-- Overlap bookkeeping for a chunk sequence: given the preceding chunk, the
list ks records for each following chunk the length of its overlapping prefix,
which must be a suffix of its predecessor. -/
def chainOverlap : List Char → List (List Char) → List Nat → Prop
  | _, [], [] => True
  | prev, c :: cs, k :: ks => k ≤ c.length ∧ c.take k <:+ prev ∧ chainOverlap c cs ks
  | _, _, _ => False

/-- Concatenation of a chunk tail, each chunk with its overlapping prefix
removed according to ks. -/
def stripped : List (List Char) → List Nat → List Char
  | [], _ => []
  | _ :: _, [] => []
  | c :: cs, k :: ks => c.drop k ++ stripped cs ks

/-- A valid overlap list for a whole chunk sequence. -/
def validOverlaps : List (List Char) → List Nat → Prop
  | [], ks => ks = []
  | c :: cs, ks => chainOverlap c cs ks

/-- Reconstruction of a text from chunks: the first chunk in full, every later
chunk with its overlapping prefix removed. -/
def unoverlap : List (List Char) → List Nat → List Char
  | [], _ => []
  | c :: cs, ks => c ++ stripped cs ks

/-- The dataclass DocumentMetadata. -/
structure DocumentMetadata where
  source : String
  file_type : String
  token_count : Nat
  chunk_index : Nat
  total_chunks : Nat
deriving DecidableEq, Repr

/-- A pathlib.Path value as consumed by the loader: its components (Path.parts)
together with its rendering str(file_path). -/
structure PyPath where
  parts : List String
  full : String
deriving DecidableEq, Repr

/-- Path.name of a PyPath: the last component (empty for a bare root). -/
def pyPathName (p : PyPath) : String := p.parts.getLast?.getD ""

/-- Substring test modelling the Python expression needle in hay. -/
def isSubstring (needle hay : List Char) : Bool :=
  hay.tails.any (fun t => needle.isPrefixOf t)

/-- The root-marker test of create_enhanced_metadata: the literal
CleanArchitecture occurring inside a path component. -/
def hasMarker (part : String) : Bool :=
  isSubstring "CleanArchitecture".data part.data

/-- The generator expression next(i for i, part in enumerate(path_parts) if ...)
of create_enhanced_metadata: index of the first component containing the marker. -/
def findMarkerIdx (i : Nat) : List String → Option Nat
  | [] => none
  | part :: rest => if hasMarker part then some i else findMarkerIdx (i + 1) rest

/-- The try/except StopIteration block of create_enhanced_metadata: the source
string is the backslash join of the components from the first marker component
onward, or the full original path string when no component contains the marker. -/
def sourcePath (file_path : PyPath) : String :=
  match findMarkerIdx 0 file_path.parts with
  | some i => String.intercalate "\\" (file_path.parts.drop i)
  | none => file_path.full

/-- SimpleDirectoryLoader.create_enhanced_metadata. The tokenizer (external
tiktoken encoder) is a parameter that may fail, mirroring that an exception from
tokenizer.encode propagates out of this method. -/
def create_enhanced_metadata (tok : String → Except String Nat) (file_path : PyPath)
    (content : String) (chunk_index : Nat) (total_chunks : Nat) :
    Except String DocumentMetadata :=
  match tok content with
  | Except.error e => Except.error e
  | Except.ok token_count =>
      Except.ok (DocumentMetadata.mk (sourcePath file_path)
        (identify_file_type (pyPathName file_path)) token_count chunk_index total_chunks)

/-- The last path component of a rendered path string, as Path(s).name on
Windows (both slash and backslash separate components). -/
def lastComponent (l : List Char) : List Char :=
  l.foldl (fun acc c => if c = '/' ∨ c = '\\' then [] else acc ++ [c]) []

/-- Path(metadata.source).name in add_contextual_prefix. -/
def pathName (s : String) : String := String.mk (lastComponent s.data)

/-- The contextual descriptor builder of SimpleDirectoryLoader. The source line
builds the descriptor with an f-string ending in a double-escaped pair, so the
bracketed descriptor is followed by the four characters backslash, n, backslash,
n (not by two newline characters). -/
def add_contextual_prefix (content : String) (metadata : DocumentMetadata) : String :=
  let context_parts := ["File: " ++ pathName metadata.source, "Type: " ++ metadata.file_type]
  let context_parts :=
    if metadata.total_chunks > 1 then
      context_parts ++
        ["Part " ++ toString (metadata.chunk_index + 1) ++ " of " ++ toString metadata.total_chunks]
    else context_parts
  ("[" ++ String.intercalate " | " context_parts ++ "]\\n\\n") ++ content

/-- A langchain Document as produced by process_file: enhanced page content plus
the metadata record (asdict keeps exactly the dataclass fields). -/
structure Doc where
  page_content : String
  metadata : DocumentMetadata
deriving DecidableEq, Repr

/-- SimpleDirectoryLoader.load_file_content: the open-and-read outcome is a
parameter; any exception is caught and converted to None. -/
def load_file_content (readOutcome : Except String String) : Option String :=
  match readOutcome with
  | Except.ok content => some content
  | Except.error _ => none

/-- The document-building loop of process_file: for i, chunk in enumerate(chunks)
build metadata (which may fail in the tokenizer), the prefixed content, and the
Document; i is the running index, total the chunk count len(chunks). -/
def buildDocs (tok : String → Except String Nat) (file_path : PyPath) (total : Nat) :
    Nat → List String → Except String (List Doc)
  | _, [] => Except.ok []
  | i, chunk :: rest =>
    match create_enhanced_metadata tok file_path chunk i total with
    | Except.error e => Except.error e
    | Except.ok metadata =>
      match buildDocs tok file_path total (i + 1) rest with
      | Except.error e => Except.error e
      | Except.ok docs =>
          Except.ok (Doc.mk ( add_contextual_prefix chunk metadata) metadata :: docs)

/-- The body of SimpleDirectoryLoader.process_file inside its try block: read the
content (load_file_content already absorbs read failures into None), return no
documents for missing or empty content, otherwise chunk with the default sizes
1000 and 100 and build one document per chunk. -/
def processFileBody (tok : String → Except String Nat) (file_path : PyPath)
    (readOutcome : Except String String) : Except String (List Doc) :=
  match load_file_content readOutcome with
  | none => Except.ok []
  | some content =>
    if content = "" then Except.ok []
    else
      buildDocs tok file_path (chunk_content content 1000 100).length 0
        (chunk_content content 1000 100)

/-- SimpleDirectoryLoader.process_file: the try/except boundary converting any
exception from the body into an empty document list. -/
def process_file (tok : String → Except String Nat) (file_path : PyPath)
    (readOutcome : Except String String) : List Doc :=
  match processFileBody tok file_path readOutcome with
  | Except.ok documents => documents
  | Except.error _ => []

/-- One serializable record of export_documents: both format branches build the
dictionary with keys page_content and metadata from a Document. -/
structure DocRecord where
  page_content : String
  metadata : DocumentMetadata
deriving DecidableEq, Repr

/-- The doc_data list built by the json branch of export_documents (the array
that json.dump writes). -/
def export_documents_json_records (documents : List Doc) : List DocRecord :=
  documents.map (fun doc => DocRecord.mk doc.page_content doc.metadata)

/-- The per-line records written by the jsonl branch of export_documents, in
write order. -/
def export_documents_jsonl_records (documents : List Doc) : List DocRecord :=
  documents.map (fun doc => DocRecord.mk doc.page_content doc.metadata)

/-- The character stream the jsonl branch writes: each dumped record is followed
by the two characters backslash and n, because the source appends the Python
literal backslash backslash n (an escaped backslash then the letter n), not a
newline. The serialization of one record (json.dumps, external) is a parameter. -/
def export_documents_jsonl_file (dumps : DocRecord → List Char) (documents : List Doc) :
    List Char :=
  (documents.map (fun doc => dumps (DocRecord.mk doc.page_content doc.metadata) ++ ['\\', 'n'])).flatten

/-- A Python value stored in a Qdrant payload dictionary. -/
inductive PyValue where
  | str (s : String)
  | int (n : Int)
  | boolean (b : Bool)
deriving DecidableEq, Repr

/-- The dictionary expression of add_document with the unpacking of metadata and
one extra key: keys of the base dictionary keep their order and value, except
that an existing binding of the key is overwritten in place; a fresh key is
appended at the end. -/
def dictInsert (m : List (String × PyValue)) (k : String) (v : PyValue) :
    List (String × PyValue) :=
  if m.any (fun kv => kv.1 == k) then m.map (fun kv => if kv.1 == k then (k, v) else kv)
  else m ++ [(k, v)]

/-- A qdrant PointStruct; the embedding vector type stays abstract (the model
never inspects vector components). -/
structure PointStruct (E : Type) where
  id : String
  vector : E
  payload : List (String × PyValue)

/-- VectorDBManager.add_document: default the metadata to an empty dictionary,
create the embedding when none is passed (create_embedding is the external
collaborator, a parameter here), store the document text in the payload under
the reserved key, upsert the point and return the id. The result is the upserted
point together with the returned value. -/
def add_document {E : Type} (create_embedding : String → E) (doc_id : String)
    (text : String) (embedding : Option E) (metadata : Option (List (String × PyValue))) :
    PointStruct E × String :=
  let metadata := metadata.getD []
  let embedding :=
    match embedding with
    | some e => e
    | none => create_embedding text
  let full_metadata := dictInsert metadata "document" (PyValue.str text)
  (PointStruct.mk doc_id embedding full_metadata, doc_id)

/-- Outcome of the client.delete_collection call at the start of
initialize_collection: success, the UnexpectedResponse the qdrant client raises
for a missing collection, or any other exception. -/
inductive DeleteOutcome where
  | ok
  | unexpectedResponse (msg : String)
  | otherError (msg : String)
deriving DecidableEq, Repr

/-- A logging event emitted by VectorDBManager. -/
inductive LogEvent where
  | info (msg : String)
  | warning (msg : String)
deriving DecidableEq, Repr

/-- Whether a log event is a warning. -/
def isWarning : LogEvent → Bool
  | LogEvent.info _ => false
  | LogEvent.warning _ => true

/-- VectorDBManager.initialize_collection: try to delete the existing collection
(an UnexpectedResponse meaning the collection does not exist is passed over
silently; any other exception is caught and logged as a warning), then always
create the collection anew. The result is the emitted log events and whether
create_collection was reached. -/
def initialize_collection (collection_name : String) (deleteResult : DeleteOutcome) :
    List LogEvent × Bool :=
  let deleteLogs :=
    match deleteResult with
    | DeleteOutcome.ok =>
        [LogEvent.info ("Deleted existing collection: " ++ collection_name)]
    | DeleteOutcome.unexpectedResponse _ => []
    | DeleteOutcome.otherError e =>
        [LogEvent.warning ("Error deleting collection: " ++ e)]
  (deleteLogs ++ [LogEvent.info ("Created new collection: " ++ collection_name)], true)

/-! Lemmas about the glob matcher. -/

theorem globMatch_star_iff (ps : List Char) (s : List Char) :
    globMatch ('*' :: ps) s = true ↔ ∃ t, t <:+ s ∧ globMatch ps t = true := by
  simp [globMatch, List.any_eq_true, List.mem_tails]

theorem globMatch_nowild_append (p : List Char) (hp : ∀ c ∈ p, ¬ c = '*')
    (qs s : List Char) (h : globMatch (p ++ qs) s = true) :
    ∃ t, t <:+ s ∧ globMatch qs t = true := by
  induction p generalizing s with
  | nil => exact ⟨s, List.suffix_refl s, by simpa using h⟩
  | cons c p ih =>
    have hc : ¬ c = '*' := hp c (List.mem_cons_self c p)
    cases s with
    | nil => simp [globMatch, hc] at h
    | cons d s' =>
      rw [List.cons_append] at h
      simp only [globMatch, if_neg hc, Bool.and_eq_true] at h
      obtain ⟨t, ht, hg⟩ := ih (fun x hx => hp x (List.mem_cons_of_mem c hx)) s' h.2
      exact ⟨t, ht.trans (List.suffix_cons d s'), hg⟩

theorem globMatch_star_mid (mid : List Char) (hmid : ∀ c ∈ mid, ¬ c = '*')
    (ps s : List Char) (h : globMatch ('*' :: (mid ++ '*' :: ps)) s = true) :
    globMatch ('*' :: ps) s = true := by
  obtain ⟨t, hts, h1⟩ := (globMatch_star_iff _ s).mp h
  obtain ⟨u, hut, h2⟩ := globMatch_nowild_append mid hmid ('*' :: ps) t h1
  obtain ⟨v, hvu, h3⟩ := (globMatch_star_iff ps u).mp h2
  exact (globMatch_star_iff ps s).mpr ⟨v, (hvu.trans hut).trans hts, h3⟩

theorem fnmatch_star_cs (file_name : String) (mid : List Char)
    (hmid : ∀ c ∈ mid, ¬ c = '*') (pat : String)
    (hpat : pat.data = '*' :: (mid ++ '*' :: ('.' :: 'c' :: 's' :: [])))
    (h : fnmatch file_name pat = true) : fnmatch file_name "*.cs" = true := by
  unfold fnmatch at h ⊢
  rw [hpat] at h
  exact globMatch_star_mid mid hmid _ _ h

/-! Lemmas about the ordered category lookup. -/

theorem findCategory_eq_none (file_name : String) (l : List (String × List String)) :
    findCategory file_name l = none ↔
      ∀ cp ∈ l, cp.2.any (fun pattern => fnmatch file_name pattern) = false := by
  induction l with
  | nil => simp [findCategory]
  | cons cp rest ih =>
    obtain ⟨ft, pats⟩ := cp
    by_cases h : pats.any (fun pattern => fnmatch file_name pattern) = true
    · rw [findCategory, if_pos h]
      constructor
      · intro hn; exact absurd hn (by simp)
      · intro hall
        have h2 : pats.any (fun pattern => fnmatch file_name pattern) = false :=
          hall (ft, pats) (List.mem_cons_self _ _)
        rw [h2] at h
        exact absurd h Bool.false_ne_true
    · simp only [Bool.not_eq_true] at h
      rw [findCategory, if_neg (by simp [h]), ih]
      constructor
      · intro hall cq hcq
        rcases List.mem_cons.mp hcq with rfl | hq
        · exact h
        · exact hall cq hq
      · intro hall cq hcq
        exact hall cq (List.mem_cons_of_mem _ hcq)

theorem findCategory_eq_some (file_name : String) (l : List (String × List String))
    (cat : String) (h : findCategory file_name l = some cat) :
    ∃ l1 cp l2, l = l1 ++ cp :: l2 ∧ cp.1 = cat ∧
      cp.2.any (fun pattern => fnmatch file_name pattern) = true ∧
      ∀ cq ∈ l1, cq.2.any (fun pattern => fnmatch file_name pattern) = false := by
  induction l with
  | nil => simp [findCategory] at h
  | cons cp0 rest ih =>
    obtain ⟨ft, pats⟩ := cp0
    by_cases hm : pats.any (fun pattern => fnmatch file_name pattern) = true
    · refine ⟨[], (ft, pats), rest, by simp, ?_, hm, by simp⟩
      simpa [findCategory, hm] using h
    · simp only [Bool.not_eq_true] at hm
      rw [findCategory, if_neg (by simp [hm])] at h
      obtain ⟨l1, cp, l2, hl, hk, hany, hprev⟩ := ih h
      refine ⟨(ft, pats) :: l1, cp, l2, by simp [hl], hk, hany, ?_⟩
      intro cq hcq
      rcases List.mem_cons.mp hcq with hq | hq
      · simpa [hq] using hm
      · exact hprev cq hq

/-- C2: for every file name, identify_file_type returns exactly one category from
the fixed eight-element set; it returns the category of the earliest entry of
FILE_TYPE_PATTERNS one of whose patterns matches (everything declared before it
fails to match), and it returns the fallback other exactly when no pattern of any
category matches. -/
theorem identify_file_type_spec (file_name : String) :
    identify_file_type file_name ∈
      ["csharp", "project", "config", "documentation", "web", "test", "migration", "other"] ∧
    (identify_file_type file_name = "other" ↔
      ∀ cp ∈ FILE_TYPE_PATTERNS, cp.2.any (fun pattern => fnmatch file_name pattern) = false) ∧
    (∀ cp ∈ FILE_TYPE_PATTERNS, cp.2.any (fun pattern => fnmatch file_name pattern) = true →
      ∃ l1 cp0 l2, FILE_TYPE_PATTERNS = l1 ++ cp0 :: l2 ∧
        identify_file_type file_name = cp0.1 ∧
        cp0.2.any (fun pattern => fnmatch file_name pattern) = true ∧
        ∀ cq ∈ l1, cq.2.any (fun pattern => fnmatch file_name pattern) = false) := by
  have hkeys : ∀ cp ∈ FILE_TYPE_PATTERNS,
      cp.1 ∈ ["csharp", "project", "config", "documentation", "web", "test", "migration", "other"] := by
    decide
  have hno : ∀ cp ∈ FILE_TYPE_PATTERNS, ¬ cp.1 = "other" := by decide
  refine ⟨?_, ?_, ?_⟩
  · cases hfc : findCategory file_name FILE_TYPE_PATTERNS with
    | none => simp [identify_file_type, hfc]
    | some cat =>
      obtain ⟨l1, cp, l2, hl, hk, hany, hprev⟩ := findCategory_eq_some _ _ _ hfc
      have hmem : cp ∈ FILE_TYPE_PATTERNS := by
        rw [hl]; exact List.mem_append_right _ (List.mem_cons_self _ _)
      have : identify_file_type file_name = cp.1 := by
        simp [identify_file_type, hfc, hk]
      rw [this]
      exact hkeys cp hmem
  · constructor
    · intro h
      cases hfc : findCategory file_name FILE_TYPE_PATTERNS with
      | none => exact (findCategory_eq_none _ _).mp hfc
      | some cat =>
        obtain ⟨l1, cp, l2, hl, hk, hany, hprev⟩ := findCategory_eq_some _ _ _ hfc
        have hmem : cp ∈ FILE_TYPE_PATTERNS := by
          rw [hl]; exact List.mem_append_right _ (List.mem_cons_self _ _)
        have hcat : identify_file_type file_name = cp.1 := by
          simp [identify_file_type, hfc, hk]
        exact absurd (hcat.symm.trans h) (hno cp hmem)
    · intro hall
      have hfc : findCategory file_name FILE_TYPE_PATTERNS = none :=
        (findCategory_eq_none _ _).mpr hall
      simp [identify_file_type, hfc]
  · intro cp hmem hany
    cases hfc : findCategory file_name FILE_TYPE_PATTERNS with
    | none =>
      have := (findCategory_eq_none _ _).mp hfc cp hmem
      rw [this] at hany
      exact absurd hany Bool.false_ne_true
    | some cat =>
      obtain ⟨l1, cp0, l2, hl, hk, hany0, hprev⟩ := findCategory_eq_some _ _ _ hfc
      refine ⟨l1, cp0, l2, hl, ?_, hany0, hprev⟩
      simp [identify_file_type, hfc, hk]

/-- Witness for C2 at a concrete name matching both the csharp and the test
category: the result is a member of the fixed set. -/
theorem identify_file_type_spec_witness :
    identify_file_type "UserTests.cs" ∈
      ["csharp", "project", "config", "documentation", "web", "test", "migration", "other"] :=
  (identify_file_type_spec "UserTests.cs").1

theorem identify_no_late_cs_category (file_name : String) (cat : String)
    (h : findCategory file_name FILE_TYPE_PATTERNS = some cat)
    (hcat : cat = "test" ∨ cat = "migration") : False := by
  obtain ⟨l1, cp, l2, hl, hk, hany, hprev⟩ := findCategory_eq_some _ _ _ h
  cases l1 with
  | nil =>
    have hcp : cp = ("csharp", ["*.cs"]) := by
      have hh := congrArg (fun l => l.head?) hl
      simpa [FILE_TYPE_PATTERNS] using hh.symm
    rcases hcat with hc | hc <;> rw [hcp, hc] at hk <;> exact absurd hk (by decide)
  | cons q l1' =>
    have hq : q = ("csharp", ["*.cs"]) := by
      have hh := congrArg (fun l => l.head?) hl
      simpa [FILE_TYPE_PATTERNS] using hh.symm
    have hcsf : fnmatch file_name "*.cs" = false := by
      have hh := hprev q (List.mem_cons_self _ _)
      rw [hq] at hh
      simpa using hh
    have hmem : cp ∈ FILE_TYPE_PATTERNS := by
      rw [hl]; exact List.mem_append_right _ (List.mem_cons_self _ _)
    have hcs : fnmatch file_name "*.cs" = true := by
      rcases hcat with hc | hc
      · have hcp : cp = ("test", ["*test*.cs", "*Test*.cs", "*Tests*.cs"]) := by
          rw [hc] at hk
          fin_cases hmem <;> simp_all
        rw [hcp] at hany
        simp only [List.any_eq_true, List.mem_cons, List.not_mem_nil] at hany
        obtain ⟨pat, hpm, hpt⟩ := hany
        rcases hpm with rfl | rfl | rfl | hfalse
        · exact fnmatch_star_cs _ "test".data (by decide) _ rfl hpt
        · exact fnmatch_star_cs _ "Test".data (by decide) _ rfl hpt
        · exact fnmatch_star_cs _ "Tests".data (by decide) _ rfl hpt
        · exact absurd hfalse (by simp)
      · have hcp : cp = ("migration", ["*Migration*.cs", "*migration*.cs"]) := by
          rw [hc] at hk
          fin_cases hmem <;> simp_all
        rw [hcp] at hany
        simp only [List.any_eq_true, List.mem_cons, List.not_mem_nil] at hany
        obtain ⟨pat, hpm, hpt⟩ := hany
        rcases hpm with rfl | rfl | hfalse
        · exact fnmatch_star_cs _ "Migration".data (by decide) _ rfl hpt
        · exact fnmatch_star_cs _ "migration".data (by decide) _ rfl hpt
        · exact absurd hfalse (by simp)
    rw [hcs] at hcsf
    exact absurd hcsf (by decide)

/-- C9: identify_file_type never returns test or migration: every pattern of
those two categories only matches names that also match the earlier-declared
csharp pattern, so the first-match loop already returned csharp. -/
theorem identify_file_type_not_test_migration (file_name : String) :
    identify_file_type file_name ≠ "test" ∧ identify_file_type file_name ≠ "migration" := by
  constructor <;> intro h
  · cases hfc : findCategory file_name FILE_TYPE_PATTERNS with
    | none =>
      rw [identify_file_type, hfc] at h
      exact absurd h (by decide)
    | some cat =>
      rw [identify_file_type, hfc] at h
      exact identify_no_late_cs_category file_name cat hfc (Or.inl h)
  · cases hfc : findCategory file_name FILE_TYPE_PATTERNS with
    | none =>
      rw [identify_file_type, hfc] at h
      exact absurd h (by decide)
    | some cat =>
      rw [identify_file_type, hfc] at h
      exact identify_no_late_cs_category file_name cat hfc (Or.inr h)

/-- Witness for C9 at a name matching the test patterns: the classifier does not
return test. -/
theorem identify_file_type_not_test_migration_witness :
    identify_file_type "UserTests.cs" ≠ "test" :=
  (identify_file_type_not_test_migration "UserTests.cs").1

/-! Lemmas about the spec-modelled splitter. -/

theorem splitGo_flatten (sep : List Char) (fuel : Nat) :
    ∀ acc text : List Char, (splitGo sep fuel acc text).flatten = acc ++ text := by
  induction fuel with
  | zero =>
    intro acc text
    by_cases h : (acc ++ text).isEmpty
    · rw [splitGo, if_pos h]
      simp [(List.isEmpty_iff).mp h]
    · rw [splitGo, if_neg h]
      simp
  | succ fuel ih =>
    intro acc text
    cases text with
    | nil =>
      by_cases h : acc.isEmpty
      · rw [splitGo, if_pos h]
        simp [(List.isEmpty_iff).mp h]
      · rw [splitGo, if_neg h]
        simp
    | cons c rest =>
      by_cases h : (sep.isPrefixOf (c :: rest) && !sep.isEmpty) = true
      · rw [splitGo, if_pos h]
        rw [Bool.and_eq_true] at h
        obtain ⟨hpre, -⟩ := h
        obtain ⟨t, ht⟩ := List.isPrefixOf_iff_prefix.mp hpre
        rw [List.flatten_cons, ih]
        rw [← ht, List.drop_left]
        simp
      · rw [splitGo, if_neg h, ih]
        simp

theorem splitKeepSep_flatten (sep text : List Char) :
    (splitKeepSep sep text).flatten = text := by
  by_cases h : sep.isEmpty
  · rw [splitKeepSep, if_pos h]
    induction text with
    | nil => simp
    | cons c rest ih => simpa using ih
  · rw [splitKeepSep, if_neg h]
    simpa using splitGo_flatten sep text.length [] text

theorem refinePieces_flatten (maxSize : Nat) (seps : List (List Char)) :
    ∀ text : List Char, (refinePieces maxSize seps text).flatten = text := by
  induction seps with
  | nil => intro text; simp [refinePieces]
  | cons sep finer ih =>
    intro text
    rw [refinePieces]
    have key : ∀ ps : List (List Char),
        ((ps.flatMap
          (fun p => if p.length ≤ maxSize then [p] else refinePieces maxSize finer p)).flatten)
          = ps.flatten := by
      intro ps
      induction ps with
      | nil => simp
      | cons p ps ihp =>
        rw [List.flatMap_cons, List.flatten_append, ihp, List.flatten_cons]
        by_cases hp : p.length ≤ maxSize
        · rw [if_pos hp]; simp
        · rw [if_neg hp]; rw [ih p]
    rw [key, splitKeepSep_flatten]

theorem refinePieces_le (maxSize : Nat) (hms : 1 ≤ maxSize) (seps : List (List Char)) :
    [] ∈ seps → ∀ text : List Char, ∀ p ∈ refinePieces maxSize seps text,
      p.length ≤ maxSize := by
  induction seps with
  | nil => intro h; exact absurd h (List.not_mem_nil _)
  | cons sep finer ih =>
    intro hmem text p hp
    rw [refinePieces] at hp
    rw [List.mem_flatMap] at hp
    obtain ⟨q, hq, hpq⟩ := hp
    by_cases hql : q.length ≤ maxSize
    · rw [if_pos hql] at hpq
      rw [List.mem_singleton] at hpq
      subst hpq
      exact hql
    · rw [if_neg hql] at hpq
      by_cases hsep : sep = []
      · subst hsep
        rw [splitKeepSep, if_pos (by simp)] at hq
        rw [List.mem_map] at hq
        obtain ⟨c, -, rfl⟩ := hq
        exact absurd (by simpa using hms) hql
      · have hfin : [] ∈ finer := by
          rcases List.mem_cons.mp hmem with h | h
          · exact absurd h.symm hsep
          · exact h
        exact ih hfin q p hpq

theorem packGo_spec (maxSize overlap : Nat) (ps : List (List Char))
    (hps : ∀ p ∈ ps, p.length ≤ maxSize) :
    ∀ cur : List Char, ∃ c cs ks,
      packGo maxSize overlap cur ps = c :: cs ∧
      (∃ ext, c = cur ++ ext) ∧
      chainOverlap c cs ks ∧
      c ++ stripped cs ks = cur ++ ps.flatten ∧
      (cur.length ≤ maxSize → ∀ x ∈ c :: cs, x.length ≤ maxSize) := by
  induction ps with
  | nil =>
    intro cur
    refine ⟨cur, [], [], rfl, ⟨[], by simp⟩, trivial, by simp [stripped], ?_⟩
    intro hcur x hx
    rw [List.mem_singleton] at hx
    subst hx
    exact hcur
  | cons p ps ih =>
    have hp : p.length ≤ maxSize := hps p (List.mem_cons_self _ _)
    have hps' : ∀ q ∈ ps, q.length ≤ maxSize :=
      fun q hq => hps q (List.mem_cons_of_mem _ hq)
    intro cur
    by_cases hfit : cur.length + p.length ≤ maxSize
    · obtain ⟨c, cs, ks, h1, ⟨ext, hext⟩, h3, h4, h5⟩ := ih hps' (cur ++ p)
      refine ⟨c, cs, ks, ?_, ⟨p ++ ext, by rw [hext, List.append_assoc]⟩, h3, ?_, ?_⟩
      · rw [packGo, if_pos hfit]; exact h1
      · rw [h4, List.flatten_cons, List.append_assoc]
      · intro hcur
        exact h5 (by rw [List.length_append]; exact hfit)
    · set k := min overlap (maxSize - p.length) with hk
      set ov := takeRight k cur with hov
      obtain ⟨c, cs, ks, h1, ⟨ext, hext⟩, h3, h4, h5⟩ := ih hps' (ov ++ p)
      have hovlen : ov.length ≤ k := by
        rw [hov, takeRight, List.length_drop]
        omega
      have hnewlen : (ov ++ p).length ≤ maxSize := by
        rw [List.length_append]
        have : k ≤ maxSize - p.length := by rw [hk]; exact Nat.min_le_right _ _
        omega
      have hcext : c = ov ++ (p ++ ext) := by rw [hext, List.append_assoc]
      refine ⟨cur, c :: cs, ov.length :: ks, ?_, ⟨[], by simp⟩, ?_, ?_, ?_⟩
      · rw [packGo, if_neg hfit, h1]
      · refine ⟨?_, ?_, h3⟩
        · rw [hcext, List.length_append]; exact Nat.le_add_right _ _
        · rw [hcext, List.take_left]
          rw [hov, takeRight]
          exact List.drop_suffix _ _
      · have hdrop : c.drop ov.length = p ++ ext := by
          rw [hcext, List.drop_left]
        have hcancel : (p ++ ext) ++ stripped cs ks = p ++ ps.flatten := by
          apply @List.append_cancel_left _ ov _ _
          rw [← List.append_assoc, ← hcext, h4, List.append_assoc]
        show cur ++ (c.drop ov.length ++ stripped cs ks) = cur ++ (p :: ps).flatten
        rw [hdrop, List.flatten_cons, hcancel]
      · intro hcur x hx
        rcases List.mem_cons.mp hx with rfl | hx'
        · exact hcur
        · exact h5 hnewlen x hx'

/-- C1: for every input text and every configuration with overlap smaller than
max_size, the chunks returned by the (spec-modelled) splitter behind
chunk_content carry overlap amounts under which each later chunk's removed
leading slice is a suffix of its predecessor and the concatenation after removal
reconstructs the original text; moreover every chunk has length at most
max_size (so in particular the atomic-piece exception is never needed with the
default character-level last-resort separator). -/
theorem chunk_content_lossless (content : String) (maxSize overlap : Nat)
    (hov : overlap < maxSize) :
    ∃ ks : List Nat,
      validOverlaps ((chunk_content content maxSize overlap).map String.data) ks ∧
      unoverlap ((chunk_content content maxSize overlap).map String.data) ks = content.data ∧
      ∀ chunk ∈ chunk_content content maxSize overlap, chunk.length ≤ maxSize := by
  have hms : 1 ≤ maxSize := by omega
  have hmap : (chunk_content content maxSize overlap).map String.data
      = split_text maxSize overlap content.data := by
    rw [chunk_content, List.map_map]
    have : String.data ∘ String.mk = id := rfl
    rw [this, List.map_id]
  have hflat : (refinePieces maxSize SEPARATORS content.data).flatten = content.data :=
    refinePieces_flatten maxSize SEPARATORS content.data
  have hsizes : ∀ p ∈ refinePieces maxSize SEPARATORS content.data, p.length ≤ maxSize :=
    refinePieces_le maxSize hms SEPARATORS (by simp [SEPARATORS]) content.data
  have hlen : ∀ chunk : String, ∀ x ∈ split_text maxSize overlap content.data,
      chunk = String.mk x → chunk.length = x.length := by
    intro chunk x _ hmk
    rw [hmk]
    rfl
  cases hp : refinePieces maxSize SEPARATORS content.data with
  | nil =>
    have htext : content.data = [] := by rw [← hflat, hp]; rfl
    have hsplit : split_text maxSize overlap content.data = [] := by
      rw [split_text, hp]; rfl
    refine ⟨[], ?_, ?_, ?_⟩
    · rw [hmap, hsplit]; rfl
    · rw [hmap, hsplit, htext]; rfl
    · intro chunk hchunk
      rw [chunk_content, hsplit] at hchunk
      exact absurd hchunk (by simp)
  | cons p ps =>
    have hp0 : p.length ≤ maxSize := by
      apply hsizes
      rw [hp]
      exact List.mem_cons_self _ _
    have hps' : ∀ q ∈ ps, q.length ≤ maxSize := by
      intro q hq
      apply hsizes
      rw [hp]
      exact List.mem_cons_of_mem _ hq
    obtain ⟨c, cs, ks, h1, -, h3, h4, h5⟩ := packGo_spec maxSize overlap ps hps' p
    have hsplit : split_text maxSize overlap content.data = c :: cs := by
      rw [split_text, hp]; exact h1
    refine ⟨ks, ?_, ?_, ?_⟩
    · rw [hmap, hsplit]; exact h3
    · rw [hmap, hsplit]
      show c ++ stripped cs ks = content.data
      rw [h4, ← List.flatten_cons, ← hp, hflat]
    · intro chunk hchunk
      rw [chunk_content] at hchunk
      rw [List.mem_map] at hchunk
      obtain ⟨x, hx, hmk⟩ := hchunk
      rw [hlen chunk x hx hmk.symm]
      rw [hsplit] at hx
      exact h5 hp0 x hx

/-- Witness for C1 at a concrete text and configuration. -/
theorem chunk_content_lossless_witness :
    ∃ ks : List Nat,
      validOverlaps ((chunk_content "alpha beta gamma delta" 10 3).map String.data) ks ∧
      unoverlap ((chunk_content "alpha beta gamma delta" 10 3).map String.data) ks
        = "alpha beta gamma delta".data ∧
      ∀ chunk ∈ chunk_content "alpha beta gamma delta" 10 3, chunk.length ≤ 10 :=
  chunk_content_lossless "alpha beta gamma delta" 10 3 (by decide)

/-- C4: the source line building the contextual prefix double-escapes the
newline pair inside an f-string, so the bracketed descriptor is followed by the
four characters backslash, n, backslash, n instead of a blank line; for a
single-chunk metadata record the output is exactly the bracketed descriptor
(with the Part segment omitted), that literal four-character text, and the
unmodified content, and the whole result contains no newline character. -/
theorem add_contextual_prefix_literal_backslash :
    add_contextual_prefix "hello" (DocumentMetadata.mk "README.md" "documentation" 1 0 1)
      = "[File: README.md | Type: documentation]\\n\\nhello" ∧
    (( add_contextual_prefix "hello"
        (DocumentMetadata.mk "README.md" "documentation" 1 0 1)).data.contains '\n') = false := by
  constructor
  · rfl
  · decide

/-! Lemmas about the marker scan of the metadata builder. -/

theorem findMarkerIdx_none_iff (parts : List String) :
    ∀ i, findMarkerIdx i parts = none ↔ ∀ q ∈ parts, hasMarker q = false := by
  induction parts with
  | nil => intro i; simp [findMarkerIdx]
  | cons part rest ih =>
    intro i
    by_cases h : hasMarker part = true
    · rw [findMarkerIdx, if_pos h]
      constructor
      · intro hn; exact absurd hn (by simp)
      · intro hall
        rw [hall part (List.mem_cons_self _ _)] at h
        exact absurd h Bool.false_ne_true
    · simp only [Bool.not_eq_true] at h
      rw [findMarkerIdx, if_neg (by simp [h]), ih]
      constructor
      · intro hall q hq
        rcases List.mem_cons.mp hq with rfl | hq'
        · exact h
        · exact hall q hq'
      · intro hall q hq
        exact hall q (List.mem_cons_of_mem _ hq)

theorem findMarkerIdx_some_decomp (parts : List String) :
    ∀ i j, findMarkerIdx i parts = some j →
      ∃ pre part post, parts = pre ++ part :: post ∧ j = i + pre.length ∧
        hasMarker part = true ∧ ∀ q ∈ pre, hasMarker q = false := by
  induction parts with
  | nil => intro i j h; exact absurd h (by simp [findMarkerIdx])
  | cons part rest ih =>
    intro i j h
    by_cases hm : hasMarker part = true
    · rw [findMarkerIdx, if_pos hm] at h
      obtain rfl : i = j := by simpa using h
      exact ⟨[], part, rest, by simp, by simp, hm, by simp⟩
    · simp only [Bool.not_eq_true] at hm
      rw [findMarkerIdx, if_neg (by simp [hm])] at h
      obtain ⟨pre, part', post, hparts, hj, hmk, hprev⟩ := ih (i + 1) j h
      refine ⟨part :: pre, part', post, by simp [hparts], by simp; omega, hmk, ?_⟩
      intro q hq
      rcases List.mem_cons.mp hq with rfl | hq'
      · exact hm
      · exact hprev q hq'

theorem create_enhanced_metadata_fields (tok : String → Except String Nat)
    (file_path : PyPath) (content : String) (ci tcs : Nat) (m : DocumentMetadata)
    (h : create_enhanced_metadata tok file_path content ci tcs = Except.ok m) :
    m.source = sourcePath file_path ∧
    m.file_type = identify_file_type (pyPathName file_path) ∧
    m.chunk_index = ci ∧ m.total_chunks = tcs := by
  rw [create_enhanced_metadata] at h
  cases htok : tok content with
  | error e => rw [htok] at h; exact absurd h (by simp)
  | ok n =>
    rw [htok] at h
    obtain rfl : DocumentMetadata.mk (sourcePath file_path)
        (identify_file_type (pyPathName file_path)) n ci tcs = m := by simpa using h
    exact ⟨rfl, rfl, rfl, rfl⟩

/-- C6: when create_enhanced_metadata succeeds, the source field is the
backslash join of the path components from the first component containing the
root marker onward when such a component exists, and the full original path
string otherwise; and the source field is determined by the path alone (any two
successful calls on the same path agree). -/
theorem create_enhanced_metadata_source_spec (tok : String → Except String Nat)
    (file_path : PyPath) (content : String) (ci tcs : Nat) (m : DocumentMetadata)
    (h : create_enhanced_metadata tok file_path content ci tcs = Except.ok m) :
    ((∃ pre part post, file_path.parts = pre ++ part :: post ∧ hasMarker part = true ∧
        (∀ q ∈ pre, hasMarker q = false) ∧
        m.source = String.intercalate "\\" (part :: post)) ∨
     ((∀ q ∈ file_path.parts, hasMarker q = false) ∧ m.source = file_path.full)) ∧
    ∀ tok2 content2 ci2 tcs2 m2,
      create_enhanced_metadata tok2 file_path content2 ci2 tcs2 = Except.ok m2 →
      m2.source = m.source := by
  have hsrc := (create_enhanced_metadata_fields tok file_path content ci tcs m h).1
  constructor
  · cases hidx : findMarkerIdx 0 file_path.parts with
    | none =>
      right
      refine ⟨(findMarkerIdx_none_iff file_path.parts 0).mp hidx, ?_⟩
      rw [hsrc]
      simp [sourcePath, hidx]
    | some j =>
      left
      obtain ⟨pre, part, post, hparts, hj, hmk, hprev⟩ :=
        findMarkerIdx_some_decomp file_path.parts 0 j hidx
      refine ⟨pre, part, post, hparts, hmk, hprev, ?_⟩
      rw [hsrc]
      simp only [sourcePath, hidx]
      rw [hparts]
      have hjl : j = pre.length := by omega
      rw [hjl, List.drop_left]
  · intro tok2 content2 ci2 tcs2 m2 h2
    have hsrc2 := (create_enhanced_metadata_fields tok2 file_path content2 ci2 tcs2 m2 h2).1
    rw [hsrc, hsrc2]

/-- Witness for C6 at a concrete path containing the marker component. -/
theorem create_enhanced_metadata_source_spec_witness :
    (∃ pre part post,
        (PyPath.mk ["C:", "work", "CleanArchitecture-main", "src", "Foo.cs"]
          "C:\\work\\CleanArchitecture-main\\src\\Foo.cs").parts = pre ++ part :: post ∧
        hasMarker part = true ∧ (∀ q ∈ pre, hasMarker q = false) ∧
        (DocumentMetadata.mk "CleanArchitecture-main\\src\\Foo.cs" "csharp" 0 3 7).source
          = String.intercalate "\\" (part :: post)) ∨
    ((∀ q ∈ (PyPath.mk ["C:", "work", "CleanArchitecture-main", "src", "Foo.cs"]
          "C:\\work\\CleanArchitecture-main\\src\\Foo.cs").parts, hasMarker q = false) ∧
      (DocumentMetadata.mk "CleanArchitecture-main\\src\\Foo.cs" "csharp" 0 3 7).source
        = (PyPath.mk ["C:", "work", "CleanArchitecture-main", "src", "Foo.cs"]
            "C:\\work\\CleanArchitecture-main\\src\\Foo.cs").full) :=
  (create_enhanced_metadata_source_spec (fun _ => Except.ok 0)
    (PyPath.mk ["C:", "work", "CleanArchitecture-main", "src", "Foo.cs"]
      "C:\\work\\CleanArchitecture-main\\src\\Foo.cs") "x" 3 7
    (DocumentMetadata.mk "CleanArchitecture-main\\src\\Foo.cs" "csharp" 0 3 7) rfl).1

/-! Lemmas about the document-building loop. -/

theorem buildDocs_ok (tok : String → Except String Nat) (file_path : PyPath) (total : Nat) :
    ∀ chunks : List String, ∀ i : Nat, ∀ docs : List Doc,
      buildDocs tok file_path total i chunks = Except.ok docs →
      docs.length = chunks.length ∧
      ∀ j d, docs[j]? = some d →
        d.metadata.chunk_index = i + j ∧ d.metadata.total_chunks = total := by
  intro chunks
  induction chunks with
  | nil =>
    intro i docs h
    obtain rfl : ([] : List Doc) = docs := by simpa [buildDocs] using h
    exact ⟨rfl, fun j d hj => absurd hj (by simp)⟩
  | cons chunk rest ih =>
    intro i docs h
    rw [buildDocs] at h
    cases hm : create_enhanced_metadata tok file_path chunk i total with
    | error e => rw [hm] at h; exact absurd h (by simp)
    | ok metadata =>
      rw [hm] at h
      cases hr : buildDocs tok file_path total (i + 1) rest with
      | error e => rw [hr] at h; exact absurd h (by simp)
      | ok docs' =>
        rw [hr] at h
        obtain rfl : Doc.mk ( add_contextual_prefix chunk metadata) metadata :: docs' = docs := by
          simpa using h
        obtain ⟨hlen, hidx⟩ := ih (i + 1) docs' hr
        refine ⟨by simp [hlen], ?_⟩
        intro j d hj
        cases j with
        | zero =>
          obtain rfl : Doc.mk ( add_contextual_prefix chunk metadata) metadata = d := by
            simpa using hj
          have hf := create_enhanced_metadata_fields tok file_path chunk i total metadata hm
          exact ⟨by simpa using hf.2.2.1, hf.2.2.2⟩
        | succ j' =>
          have hj' : docs'[j']? = some d := by simpa using hj
          obtain ⟨h1, h2⟩ := hidx j' d hj'
          exact ⟨by rw [h1]; omega, h2⟩

/-- C3: every document produced by process_file carries its zero-based position
as chunk_index, carries the total number of produced documents as total_chunks,
and satisfies chunk_index smaller than total_chunks. -/
theorem process_file_chunk_metadata (tok : String → Except String Nat) (file_path : PyPath)
    (readOutcome : Except String String) (i : Nat) (d : Doc)
    (h : (process_file tok file_path readOutcome)[i]? = some d) :
    d.metadata.chunk_index = i ∧
    d.metadata.total_chunks = (process_file tok file_path readOutcome).length ∧
    d.metadata.chunk_index < d.metadata.total_chunks := by
  cases hb : processFileBody tok file_path readOutcome with
  | error e =>
    have hpf : process_file tok file_path readOutcome = [] := by rw [process_file, hb]
    rw [hpf] at h
    exact absurd h (by simp)
  | ok docs =>
    have hpf : process_file tok file_path readOutcome = docs := by rw [process_file, hb]
    rw [hpf] at h
    rw [hpf]
    rw [processFileBody] at hb
    cases hload : load_file_content readOutcome with
    | none =>
      rw [hload] at hb
      obtain rfl : docs = [] := by simpa using hb.symm
      exact absurd h (by simp)
    | some content =>
      rw [hload] at hb
      replace hb : (if content = "" then Except.ok []
          else buildDocs tok file_path (chunk_content content 1000 100).length 0
            (chunk_content content 1000 100)) = Except.ok docs := hb
      by_cases hempty : content = ""
      · rw [if_pos hempty] at hb
        obtain rfl : docs = [] := by simpa using hb.symm
        exact absurd h (by simp)
      · rw [if_neg hempty] at hb
        obtain ⟨hlen, hidx⟩ := buildDocs_ok tok file_path _ _ 0 docs hb
        obtain ⟨hcount, heq⟩ := hidx i d h
        have hi : i < docs.length := by
          obtain ⟨hlt, -⟩ := List.getElem?_eq_some.mp h
          exact hlt
        refine ⟨by simpa using hcount, ?_, ?_⟩
        · rw [heq, hlen]
        · have hci : d.metadata.chunk_index = i := by simpa using hcount
          rw [heq, ← hlen, hci]
          exact hi

/-- Witness for C3 at a concrete one-chunk file. -/
theorem process_file_chunk_metadata_witness :
    (Doc.mk "[File: a.md | Type: documentation]\\n\\nhello"
        (DocumentMetadata.mk "a.md" "documentation" 0 0 1)).metadata.chunk_index = 0 ∧
    (Doc.mk "[File: a.md | Type: documentation]\\n\\nhello"
        (DocumentMetadata.mk "a.md" "documentation" 0 0 1)).metadata.total_chunks
      = (process_file (fun _ => Except.ok 0) (PyPath.mk ["a.md"] "a.md")
          (Except.ok "hello")).length ∧
    (Doc.mk "[File: a.md | Type: documentation]\\n\\nhello"
        (DocumentMetadata.mk "a.md" "documentation" 0 0 1)).metadata.chunk_index
      < (Doc.mk "[File: a.md | Type: documentation]\\n\\nhello"
          (DocumentMetadata.mk "a.md" "documentation" 0 0 1)).metadata.total_chunks :=
  process_file_chunk_metadata (fun _ => Except.ok 0) (PyPath.mk ["a.md"] "a.md")
    (Except.ok "hello") 0
    (Doc.mk "[File: a.md | Type: documentation]\\n\\nhello"
      (DocumentMetadata.mk "a.md" "documentation" 0 0 1)) rfl

/-- C5: process_file converts every failure into an empty document list instead
of propagating it: an unreadable file yields no documents, any exception inside
the body yields no documents, a successful body is returned unchanged, and in
particular a tokenizer that always raises still yields no documents (never an
error) for any read outcome. -/
theorem process_file_error_isolation (tok : String → Except String Nat) (file_path : PyPath)
    (readOutcome : Except String String) :
    (∀ e, readOutcome = Except.error e → process_file tok file_path readOutcome = []) ∧
    (∀ e, processFileBody tok file_path readOutcome = Except.error e →
      process_file tok file_path readOutcome = []) ∧
    (∀ docs, processFileBody tok file_path readOutcome = Except.ok docs →
      process_file tok file_path readOutcome = docs) ∧
    ((∀ s, ∃ e, tok s = Except.error e) → process_file tok file_path readOutcome = []) := by
  refine ⟨?_, ?_, ?_, ?_⟩
  · intro e he
    subst he
    rfl
  · intro e hbe
    rw [process_file, hbe]
  · intro docs hbd
    rw [process_file, hbd]
  · intro htok
    cases hr : readOutcome with
    | error e => rfl
    | ok content =>
      rw [process_file, processFileBody]
      show (match (if content = "" then Except.ok []
          else buildDocs tok file_path (chunk_content content 1000 100).length 0
            (chunk_content content 1000 100)) with
        | Except.ok documents => documents
        | Except.error _ => ([] : List Doc)) = []
      by_cases hempty : content = ""
      · rw [if_pos hempty]
      · rw [if_neg hempty]
        cases hc : chunk_content content 1000 100 with
        | nil => rfl
        | cons chunk rest =>
          obtain ⟨e, he⟩ := htok chunk
          rw [buildDocs, create_enhanced_metadata, he]

/-- Witness for C5: a run whose tokenizer always fails produces no documents. -/
theorem process_file_error_isolation_witness :
    process_file (fun _ => Except.error "tokenizer down") (PyPath.mk ["a.md"] "a.md")
      (Except.ok "hello") = [] :=
  (process_file_error_isolation (fun _ => Except.error "tokenizer down")
    (PyPath.mk ["a.md"] "a.md") (Except.ok "hello")).2.2.2
    (fun _ => ⟨"tokenizer down", rfl⟩)

/-- C7: in initialize_collection a deletion failure meaning the collection does
not exist is not an error: nothing is logged and the run proceeds to create the
collection; any other deletion failure still proceeds to creation but is not
silently suppressed: a log entry naming the deletion error is emitted. -/
theorem initialize_collection_delete_failures (collection_name msg err : String) :
    ((initialize_collection collection_name (DeleteOutcome.unexpectedResponse msg)).2 = true ∧
      ∀ ev ∈ (initialize_collection collection_name (DeleteOutcome.unexpectedResponse msg)).1,
        isWarning ev = false) ∧
    ((initialize_collection collection_name (DeleteOutcome.otherError err)).2 = true ∧
      LogEvent.warning ("Error deleting collection: " ++ err)
        ∈ (initialize_collection collection_name (DeleteOutcome.otherError err)).1) := by
  refine ⟨⟨rfl, ?_⟩, rfl, ?_⟩
  · intro ev hev
    rw [initialize_collection] at hev
    obtain rfl : ev = LogEvent.info ("Created new collection: " ++ collection_name) := by
      simpa using hev
    rfl
  · rw [initialize_collection]
    exact List.mem_append_left _ (List.mem_cons_self _ _)

/-- Witness for C7: a concrete non-missing deletion failure is logged. -/
theorem initialize_collection_delete_failures_witness :
    LogEvent.warning ("Error deleting collection: " ++ "boom")
      ∈ (initialize_collection "documents" (DeleteOutcome.otherError "boom")).1 :=
  ((initialize_collection_delete_failures "documents" "gone" "boom").2).2

/-- C8: both export format branches serialize exactly the same records in the
same order (so the same set of page_content and metadata pairs); however the
jsonl branch follows every record with the two characters backslash and n (the
source appends a double-escaped newline), so whenever the record serializations
contain no newline, the whole jsonl file contains no newline character and is a
single physical line rather than one object per line. -/
theorem export_documents_format_equivalence (documents : List Doc)
    (dumps : DocRecord → List Char)
    (hd : ∀ r, (dumps r).all (fun c => ! (c == '\n')) = true) :
    export_documents_json_records documents = export_documents_jsonl_records documents ∧
    (export_documents_jsonl_file dumps documents).all (fun c => ! (c == '\n')) = true := by
  refine ⟨rfl, ?_⟩
  induction documents with
  | nil => rfl
  | cons doc docs ih =>
    have h1 := hd (DocRecord.mk doc.page_content doc.metadata)
    rw [export_documents_jsonl_file, List.map_cons, List.flatten_cons,
      List.all_append, List.all_append, h1]
    rw [export_documents_jsonl_file] at ih
    rw [ih]
    rfl

/-- Witness for C8 at a concrete collection and a concrete newline-free record
serialization. -/
theorem export_documents_format_equivalence_witness :
    export_documents_json_records
        [Doc.mk "a" (DocumentMetadata.mk "a.md" "documentation" 1 0 1)]
      = export_documents_jsonl_records
        [Doc.mk "a" (DocumentMetadata.mk "a.md" "documentation" 1 0 1)] ∧
    (export_documents_jsonl_file (fun _ => ['r'])
        [Doc.mk "a" (DocumentMetadata.mk "a.md" "documentation" 1 0 1)]).all
        (fun c => ! (c == '\n')) = true :=
  export_documents_format_equivalence
    [Doc.mk "a" (DocumentMetadata.mk "a.md" "documentation" 1 0 1)]
    (fun _ => ['r']) (fun _ => rfl)

/-! Lemmas about the payload dictionary of add_document. -/

theorem lookup_cons_pv (x a : String) (b : PyValue) (l : List (String × PyValue)) :
    List.lookup x ((a, b) :: l) = cond (x == a) (some b) (List.lookup x l) := by
  rw [List.lookup]
  cases x == a <;> rfl

theorem lookup_map_overwrite (m : List (String × PyValue)) (k : String) (v : PyValue)
    (h : m.any (fun kv => kv.1 == k) = true) :
    (m.map (fun kv => if kv.1 == k then (k, v) else kv)).lookup k = some v := by
  induction m with
  | nil => exact absurd h (by simp)
  | cons kv m ih =>
    obtain ⟨k0, v0⟩ := kv
    cases hk : (k0 == k) with
    | true =>
      have hk0 : k0 = k := by simpa using hk
      subst hk0
      simp [lookup_cons_pv]
    | false =>
      have hne : (k == k0) = false := by
        rw [beq_eq_false_iff_ne] at hk ⊢
        exact fun hkk => hk hkk.symm
      rw [List.map_cons]
      have hhead : (if ((k0, v0).1 == k) = true then (k, v) else (k0, v0)) = (k0, v0) := by
        rw [if_neg (by simp [hk])]
      rw [hhead, lookup_cons_pv, hne, cond_false]
      apply ih
      rw [List.any_cons] at h
      rcases Bool.or_eq_true_iff.mp h with h1 | h1
      · exact absurd h1 (by simp [hk])
      · exact h1

theorem lookup_append_new (m : List (String × PyValue)) (k : String) (v : PyValue)
    (h : m.any (fun kv => kv.1 == k) = false) :
    (m ++ [(k, v)]).lookup k = some v := by
  induction m with
  | nil => simp [lookup_cons_pv]
  | cons kv m ih =>
    obtain ⟨k0, v0⟩ := kv
    rw [List.any_cons, Bool.or_eq_false_iff] at h
    obtain ⟨h1, h2⟩ := h
    have hne : (k == k0) = false := by
      have h1' : (k0 == k) = false := h1
      rw [beq_eq_false_iff_ne] at h1' ⊢
      exact fun hkk => h1' hkk.symm
    rw [List.cons_append, lookup_cons_pv, hne, cond_false]
    exact ih h2

theorem lookup_map_other (m : List (String × PyValue)) (k k' : String) (v : PyValue)
    (hbe : (k' == k) = false) :
    (m.map (fun kv => if kv.1 == k then (k, v) else kv)).lookup k' = m.lookup k' := by
  induction m with
  | nil => rfl
  | cons kv m ih =>
    obtain ⟨k0, v0⟩ := kv
    cases hk : (k0 == k) with
    | true =>
      have hk0 : k0 = k := by simpa using hk
      subst hk0
      rw [List.map_cons]
      have hhead : (if ((k0, v0).1 == k0) = true then (k0, v) else (k0, v0)) = (k0, v) := by
        rw [if_pos (by simp)]
      rw [hhead, lookup_cons_pv, lookup_cons_pv, hbe, cond_false, cond_false]
      exact ih
    | false =>
      rw [List.map_cons]
      have hhead : (if ((k0, v0).1 == k) = true then (k, v) else (k0, v0)) = (k0, v0) := by
        rw [if_neg (by simp [hk])]
      rw [hhead, lookup_cons_pv, lookup_cons_pv]
      cases k' == k0 with
      | true => rfl
      | false => exact ih

theorem lookup_append_other (m : List (String × PyValue)) (k k' : String) (v : PyValue)
    (hbe : (k' == k) = false) :
    (m ++ [(k, v)]).lookup k' = m.lookup k' := by
  induction m with
  | nil => simp [lookup_cons_pv, hbe]
  | cons kv m ih =>
    obtain ⟨k0, v0⟩ := kv
    rw [List.cons_append, lookup_cons_pv, lookup_cons_pv]
    cases k' == k0 with
    | true => rfl
    | false => exact ih

theorem dictInsert_lookup_self (m : List (String × PyValue)) (k : String) (v : PyValue) :
    (dictInsert m k v).lookup k = some v := by
  rw [dictInsert]
  by_cases h : m.any (fun kv => kv.1 == k) = true
  · rw [if_pos h]
    exact lookup_map_overwrite m k v h
  · rw [if_neg h]
    exact lookup_append_new m k v (Bool.eq_false_iff.mpr h)

theorem dictInsert_lookup_other (m : List (String × PyValue)) (k k' : String) (v : PyValue)
    (hne : ¬ k' = k) : (dictInsert m k v).lookup k' = m.lookup k' := by
  have hbe : (k' == k) = false := by simpa [beq_eq_false_iff_ne] using hne
  rw [dictInsert]
  by_cases h : m.any (fun kv => kv.1 == k) = true
  · rw [if_pos h]
    exact lookup_map_other m k k' v hbe
  · rw [if_neg h]
    exact lookup_append_other m k k' v hbe


/-- C10: add_document stores under the document id a payload that agrees with
the caller's metadata dictionary on every key other than the reserved document
key, maps the reserved document key to the document text (silently replacing
any caller-supplied binding of that key), and returns the id unchanged. -/
theorem add_document_payload {E : Type} (create_embedding : String → E)
    (doc_id text : String) (embedding : Option E)
    (metadata : Option (List (String × PyValue))) :
    (add_document create_embedding doc_id text embedding metadata).2 = doc_id ∧
    (add_document create_embedding doc_id text embedding metadata).1.id = doc_id ∧
    (add_document create_embedding doc_id text embedding metadata).1.payload.lookup "document"
      = some (PyValue.str text) ∧
    ∀ k, ¬ k = "document" →
      (add_document create_embedding doc_id text embedding metadata).1.payload.lookup k
        = (metadata.getD []).lookup k := by
  refine ⟨rfl, rfl, ?_, ?_⟩
  · exact dictInsert_lookup_self (metadata.getD []) "document" (PyValue.str text)
  · intro k hk
    exact dictInsert_lookup_other (metadata.getD []) "document" k (PyValue.str text) hk

/-- Witness for C10: a caller-supplied document key is overwritten and the
other keys survive unchanged. -/
theorem add_document_payload_witness :
    (add_document (fun _ => (1 : Nat)) "id1" "new text" none
        (some [("document", PyValue.str "old"), ("file_type", PyValue.str "csharp")])).1.payload.lookup
        "document" = some (PyValue.str "new text") ∧
    (add_document (fun _ => (1 : Nat)) "id1" "new text" none
        (some [("document", PyValue.str "old"), ("file_type", PyValue.str "csharp")])).1.payload.lookup
        "file_type" = some (PyValue.str "csharp") :=
  ⟨(add_document_payload (fun _ => (1 : Nat)) "id1" "new text" none
      (some [("document", PyValue.str "old"), ("file_type", PyValue.str "csharp")])).2.2.1,
   Eq.trans
    ((add_document_payload (fun _ => (1 : Nat)) "id1" "new text" none
      (some [("document", PyValue.str "old"), ("file_type", PyValue.str "csharp")])).2.2.2
      "file_type" (by decide)) rfl⟩
